import Mathlib

/-!
Shallow embedding, in Lean 4, of the piecewise exponential distribution
implemented in `src/piecewise_exponential.rs` of the simtrial-rust crate,
together with theorems checking the crate's specification against it.

Floating-point model: `f64` values are embedded as the type `F`, carrying
NaN, the two signed infinities, and finite values represented by exact
rationals.  Comparison and special-value semantics of IEEE 754 are modelled
faithfully; arithmetic on finite values is exact (rounding and overflow are
not modelled).  The natural-logarithm-based transform `u ↦ -ln u` is an
external numeric primitive (`f64::ln`) and is passed as an explicit function
parameter `negLn`, so every theorem about `sample`/`inverse_cdf` quantifies
over it.  The random number generator is embedded as an infinite tape of
uniform draws together with a cursor position.
-/

namespace Simtrial

/-- Embedding of an `f64` value: NaN, an infinity (`inf true` is positive
infinity, `inf false` is negative infinity), or a finite value carried as an
exact rational. -/
inductive F where
  | nan : F
  | inf : Bool → F
  | fin : ℚ → F
deriving DecidableEq

namespace F

/-- Embeds `f64::is_nan`. -/
def is_nan : F → Bool
  | nan => true
  | _ => false

/-- Embeds `f64::is_infinite`. -/
def is_infinite : F → Bool
  | inf _ => true
  | _ => false

/-- Embeds `f64::is_finite`. -/
def is_finite : F → Bool
  | fin _ => true
  | _ => false

/-- Embeds `f64::is_sign_negative` (the model has no negative zero, so a
finite value is sign-negative exactly when it is below zero; the function is
only consulted on infinities by the embedded code). -/
def is_sign_negative : F → Bool
  | nan => false
  | inf p => !p
  | fin q => decide (q < 0)

/-- Embeds the IEEE 754 comparison `<=` on `f64`: any comparison involving
NaN is false, negative infinity is below and positive infinity above every
non-NaN value, and finite values compare as their rationals. -/
def le : F → F → Bool
  | nan, _ => false
  | _, nan => false
  | inf false, _ => true
  | _, inf true => true
  | inf true, _ => false
  | _, inf false => false
  | fin a, fin b => decide (a ≤ b)

/-- Embeds the IEEE 754 comparison `<` on `f64`. -/
def lt : F → F → Bool
  | nan, _ => false
  | _, nan => false
  | inf true, _ => false
  | _, inf false => false
  | inf false, _ => true
  | _, inf true => true
  | fin a, fin b => decide (a < b)

/-- Embeds f64 negation. -/
def neg : F → F
  | nan => nan
  | inf p => inf (!p)
  | fin q => fin (-q)

/-- Embeds f64 addition: NaN propagates, infinities of opposite sign give
NaN, an infinity absorbs finite values, and finite addition is exact. -/
def add : F → F → F
  | nan, _ => nan
  | _, nan => nan
  | inf p, inf q => if p = q then inf p else nan
  | inf p, fin _ => inf p
  | fin _, inf q => inf q
  | fin a, fin b => fin (a + b)

/-- Embeds f64 subtraction, as addition of the negation. -/
def sub (a b : F) : F := add a (neg b)

/-- Embeds f64 multiplication: NaN propagates, infinity times zero is NaN,
signs multiply, finite multiplication is exact. -/
def mul : F → F → F
  | nan, _ => nan
  | _, nan => nan
  | inf p, inf q => inf (p == q)
  | inf p, fin b => if b = 0 then nan else inf (p == decide (0 < b))
  | fin a, inf q => if a = 0 then nan else inf (q == decide (0 < a))
  | fin a, fin b => fin (a * b)

/-- Embeds f64 division: NaN propagates, infinity over infinity is NaN, a
finite value over an infinity is zero, a nonzero finite value over zero is a
signed infinity (the model carries no signed zero, so the zero divisor is
treated as positive zero), zero over zero is NaN, and finite division by a
nonzero divisor is exact. -/
def div : F → F → F
  | nan, _ => nan
  | _, nan => nan
  | inf _, inf _ => nan
  | inf p, fin b => if b = 0 then inf p else inf (p == decide (0 < b))
  | fin _, inf _ => fin 0
  | fin a, fin b =>
    if b = 0 then (if a = 0 then nan else inf (decide (0 < a)))
    else fin (a / b)

end F

/-- Predicate: the value is a strictly positive finite float. -/
def FinPos (x : F) : Prop := ∃ q : ℚ, x = F.fin q ∧ 0 < q

/-- Predicate: the value is a nonnegative finite float. -/
def FinNonneg (x : F) : Prop := ∃ q : ℚ, x = F.fin q ∧ 0 ≤ q

/-- Embeds `PiecewiseExponentialError` from `piecewise_exponential.rs`. -/
inductive PiecewiseExponentialError where
  | EmptyIntervals : PiecewiseExponentialError
  | LengthMismatch : Nat → Nat → PiecewiseExponentialError
  | NonFiniteDuration : Nat → PiecewiseExponentialError
  | NonPositiveDuration : Nat → PiecewiseExponentialError
  | NonPositiveFinalDuration : PiecewiseExponentialError
  | FinalDurationInvalid : PiecewiseExponentialError
  | NonFiniteRate : Nat → PiecewiseExponentialError
  | NonPositiveRate : Nat → PiecewiseExponentialError
deriving DecidableEq

/-- Embeds `PiecewiseExponentialSampleError` from `piecewise_exponential.rs`. -/
inductive PiecewiseExponentialSampleError where
  | UniformOutOfRange : F → PiecewiseExponentialSampleError
deriving DecidableEq

/-- Embeds the `PiecewiseExponential` struct: stored rates and the two
precomputed cumulative breakpoint sequences. -/
structure PiecewiseExponential where
  rates : List F
  cumulative_time : List F
  cumulative_hazard : List F
deriving DecidableEq

/-- Embeds the body of the duration-validation loop of
`PiecewiseExponential::new` (lines 72-97) for one index `idx` with the last
index `last_index`: NaN first (reported as `FinalDurationInvalid` on the
final index and `NonFiniteDuration` otherwise), then the non-final checks
(finite, positive) or the final checks (positive, then the two residual
conditions of the source, kept verbatim even where unreachable). -/
def checkDuration (idx last_index : Nat) (duration : F) :
    Option PiecewiseExponentialError :=
  if duration.is_nan then
    if idx = last_index then some .FinalDurationInvalid
    else some (.NonFiniteDuration idx)
  else if idx < last_index then
    if !duration.is_finite then some (.NonFiniteDuration idx)
    else if F.le duration (F.fin 0) then some (.NonPositiveDuration idx)
    else none
  else
    if F.le duration (F.fin 0) then some .NonPositiveFinalDuration
    else if !duration.is_finite && !duration.is_infinite then
      some .FinalDurationInvalid
    else if duration.is_infinite && duration.is_sign_negative then
      some .NonPositiveFinalDuration
    else none

/-- Embeds the duration-validation loop of `PiecewiseExponential::new`:
walks the remaining durations with a running index and returns the first
error, if any. -/
def findDurationError :
    List F → Nat → Nat → Option PiecewiseExponentialError
  | [], _, _ => none
  | d :: rest, idx, last_index =>
    match checkDuration idx last_index d with
    | some e => some e
    | none => findDurationError rest (idx + 1) last_index

/-- Embeds the body of the rate-validation loop of
`PiecewiseExponential::new` (lines 99-106) for one index. -/
def checkRate (idx : Nat) (rate : F) : Option PiecewiseExponentialError :=
  if !rate.is_finite then some (.NonFiniteRate idx)
  else if F.le rate (F.fin 0) then some (.NonPositiveRate idx)
  else none

/-- Embeds the rate-validation loop of `PiecewiseExponential::new`. -/
def findRateError : List F → Nat → Option PiecewiseExponentialError
  | [], _ => none
  | r :: rest, idx =>
    match checkRate idx r with
    | some e => some e
    | none => findRateError rest (idx + 1)

/-- Embeds the accumulation loop of `PiecewiseExponential::new`
(lines 113-120): for each non-final `(duration, rate)` pair, adds the
duration to the running time and `duration * rate` to the running hazard,
and records both running values. -/
def buildLoop : List (F × F) → F → F → List F × List F
  | [], _, _ => ([], [])
  | (d, r) :: rest, time_acc, hazard_acc =>
    let t := F.add time_acc d
    let h := F.add hazard_acc (F.mul d r)
    let tail := buildLoop rest t h
    (t :: tail.1, h :: tail.2)

namespace PiecewiseExponential

/-- Embeds `PiecewiseExponential::new` (lines 59-127): emptiness and length
checks, the duration- and rate-validation loops, then construction of the
cumulative arrays, each of which starts with a pushed `0.0` followed by the
running sums over the non-final intervals. -/
def new (durations rates : List F) :
    Except PiecewiseExponentialError PiecewiseExponential :=
  let interval_count := durations.length
  if interval_count = 0 then
    .error .EmptyIntervals
  else if interval_count ≠ rates.length then
    .error (.LengthMismatch interval_count rates.length)
  else
    let last_index := interval_count - 1
    match findDurationError durations 0 last_index with
    | some e => .error e
    | none =>
      match findRateError rates 0 with
      | some e => .error e
      | none =>
        let built := buildLoop ((durations.zip rates).take last_index)
          (F.fin 0) (F.fin 0)
        .ok ⟨rates, F.fin 0 :: built.1, F.fin 0 :: built.2⟩

/-- Embeds `slice::partition_point`: the number of leading elements
satisfying the predicate.  The source's binary search returns exactly this
partition index whenever the slice is partitioned with respect to the
predicate, which holds at every call site (the cumulative-hazard array is
non-decreasing and the predicate is downward closed). -/
def partition_point (p : F → Bool) (l : List F) : Nat :=
  (l.takeWhile p).length

/-- Embeds the index computation of `sample_from_hazard` (lines 183-186):
`partition_point(|&value| value <= hazard).saturating_sub(1)`, with `Nat`
subtraction playing the role of `saturating_sub`. -/
def sfhIndex (self : PiecewiseExponential) (hazard : F) : Nat :=
  partition_point (fun value => F.le value hazard) self.cumulative_hazard - 1

/-- Embeds `PiecewiseExponential::sample_from_hazard` (lines 182-190).  The
source indexes the three arrays directly (panicking out of bounds); the
model uses `List.getD` with a NaN default, and the in-bounds fact is proved
separately for every constructed distribution. -/
def sample_from_hazard (self : PiecewiseExponential) (hazard : F) : F :=
  let idx := sfhIndex self hazard
  let base_time := self.cumulative_time.getD idx F.nan
  let offset := F.div (F.sub hazard (self.cumulative_hazard.getD idx F.nan))
    (self.rates.getD idx F.nan)
  F.add base_time offset

/-- Embeds `PiecewiseExponential::inverse_cdf` (lines 174-180): reject a
uniform outside `(0, 1]`, otherwise transform to a hazard by `negLn`
(modelling `-uniform.ln()`) and defer to `sample_from_hazard`. -/
def inverse_cdf (self : PiecewiseExponential) (negLn : F → F) (uniform : F) :
    Except PiecewiseExponentialSampleError F :=
  if !(F.lt (F.fin 0) uniform && F.le uniform (F.fin 1)) then
    .error (.UniformOutOfRange uniform)
  else
    .ok (self.sample_from_hazard (negLn uniform))

end PiecewiseExponential

/-- Embeds the random number generator as an infinite tape of uniform draws
plus a cursor: `rng.sample(Open01)` reads the tape at the cursor and
advances it by one. -/
structure Rng where
  tape : Nat → F
  pos : Nat

namespace PiecewiseExponential

/-- Embeds `PiecewiseExponential::sample` (lines 146-153): draw one uniform
from the random source, transform it by `negLn` (modelling `-uniform.ln()`),
and defer to `sample_from_hazard`; the random source advances by exactly one
draw. -/
def sample (self : PiecewiseExponential) (negLn : F → F) (rng : Rng) :
    F × Rng :=
  let uniform := rng.tape rng.pos
  let hazard := negLn uniform
  (self.sample_from_hazard hazard, ⟨rng.tape, rng.pos + 1⟩)

/-- Embeds `PiecewiseExponential::sample_n` (lines 206-211): invoke `sample`
`n` times in sequence order, threading the random source, and collect the
results in draw order. -/
def sample_n (self : PiecewiseExponential) (negLn : F → F) :
    Nat → Rng → List F × Rng
  | 0, rng => ([], rng)
  | n + 1, rng =>
    let first := self.sample negLn rng
    let rest := self.sample_n negLn n first.2
    (first.1 :: rest.1, rest.2)

end PiecewiseExponential

/-- Spec-side rendering (section 4.1, steps 3 and 4) of the duration check
at one index: for a non-final index, NaN then infinite map to
`NonFiniteDuration` and nonpositive to `NonPositiveDuration`; for the final
index, NaN maps to `FinalDurationInvalid` and nonpositive (including
negative infinity) to `NonPositiveFinalDuration`, with any finite positive
value or positive infinity allowed. -/
def specCheckDuration (idx last_index : Nat) (duration : F) :
    Option PiecewiseExponentialError :=
  if idx < last_index then
    if duration.is_nan then some (.NonFiniteDuration idx)
    else if duration.is_infinite then some (.NonFiniteDuration idx)
    else if F.le duration (F.fin 0) then some (.NonPositiveDuration idx)
    else none
  else
    if duration.is_nan then some .FinalDurationInvalid
    else if F.le duration (F.fin 0) then some .NonPositiveFinalDuration
    else none

/-- Spec-side duration scan: indices in order from 0, first violation
wins. -/
def specFindDurationError :
    List F → Nat → Nat → Option PiecewiseExponentialError
  | [], _, _ => none
  | d :: rest, idx, last_index =>
    match specCheckDuration idx last_index d with
    | some e => some e
    | none => specFindDurationError rest (idx + 1) last_index

/-- Spec-side rendering (section 4.1, step 5) of the rate check at one
index: non-finite maps to `NonFiniteRate`, nonpositive to
`NonPositiveRate`. -/
def specCheckRate (idx : Nat) (rate : F) :
    Option PiecewiseExponentialError :=
  if !rate.is_finite then some (.NonFiniteRate idx)
  else if F.le rate (F.fin 0) then some (.NonPositiveRate idx)
  else none

/-- Spec-side rate scan: indices in order from 0, first violation wins. -/
def specFindRateError : List F → Nat → Option PiecewiseExponentialError
  | [], _ => none
  | r :: rest, idx =>
    match specCheckRate idx r with
    | some e => some e
    | none => specFindRateError rest (idx + 1)

/-- Spec-side rendering of the construction-error precedence of section 4.1:
empty durations, then length mismatch, then all duration checks index by
index (final index last), then all rate checks index by index; `none` means
the input is well-formed. -/
def specError (durations rates : List F) :
    Option PiecewiseExponentialError :=
  if durations.length = 0 then some .EmptyIntervals
  else if durations.length ≠ rates.length then
    some (.LengthMismatch durations.length rates.length)
  else
    match specFindDurationError durations 0 (durations.length - 1) with
    | some e => some e
    | none => specFindRateError rates 0

end Simtrial

namespace Simtrial

theorem F.le_trans {a b c : F} (hab : F.le a b = true) (hbc : F.le b c = true) :
    F.le a c = true := by
  rcases a with _ | pa | qa <;> rcases b with _ | pb | qb <;> rcases c with _ | pc | qc <;>
    (try cases pa) <;> (try cases pb) <;> (try cases pc) <;> simp_all [F.le]
  exact hab.trans hbc

theorem pp_le_length (p : F → Bool) (l : List F) :
    PiecewiseExponential.partition_point p l ≤ l.length := by
  unfold PiecewiseExponential.partition_point
  induction l with
  | nil => simp
  | cons x t ih =>
    by_cases hx : p x = true <;> simp [List.takeWhile, hx] <;> omega

theorem pp_pred_true (p : F → Bool) (l : List F) (i : Nat)
    (h : i < PiecewiseExponential.partition_point p l) :
    p (l.getD i F.nan) = true := by
  unfold PiecewiseExponential.partition_point at h
  induction l generalizing i with
  | nil => simp at h
  | cons x t ih =>
    by_cases hx : p x = true
    · cases i with
      | zero => simpa using hx
      | succ j =>
        simp only [List.takeWhile, hx, List.length_cons] at h
        exact ih j (by omega)
    · simp [List.takeWhile, hx] at h

theorem pp_pred_false (p : F → Bool) (l : List F)
    (h : PiecewiseExponential.partition_point p l < l.length) :
    p (l.getD (PiecewiseExponential.partition_point p l) F.nan) = false := by
  unfold PiecewiseExponential.partition_point at h ⊢
  induction l with
  | nil => simp at h
  | cons x t ih =>
    by_cases hx : p x = true
    · simp only [List.takeWhile, hx, List.length_cons] at h ⊢
      simpa using ih (by omega)
    · simp [List.takeWhile, hx]

theorem chain_le_getD (l : List F)
    (hc : List.Chain' (fun a b => F.le a b = true) l) (i j : Nat)
    (hij : i < j) (hj : j < l.length) :
    F.le (l.getD i F.nan) (l.getD j F.nan) = true := by
  induction l generalizing i j with
  | nil => simp at hj
  | cons x t ih =>
    cases j with
    | zero => omega
    | succ j' =>
      have hj' : j' < t.length := by simpa using hj
      cases i with
      | zero =>
        simp only [List.getD_cons_zero, List.getD_cons_succ]
        have ht : List.Chain' (fun a b => F.le a b = true) t := hc.tail
        rcases t with _ | ⟨y, t'⟩
        · simp at hj'
        · have hxy : F.le x y = true := by
            have := List.chain'_cons.mp hc
            exact this.1
          cases j' with
          | zero => simpa using hxy
          | succ k =>
            have : F.le (List.getD (y :: t') 0 F.nan) (List.getD (y :: t') (k+1) F.nan) = true :=
              ih ht 0 (k+1) (by omega) (by simpa using hj')
            exact F.le_trans hxy (by simpa using this)
      | succ i' =>
        simp only [List.getD_cons_succ]
        exact ih hc.tail i' j' (by omega) hj'

end Simtrial

namespace Simtrial

theorem F.le_fin_iff {a b : ℚ} : F.le (F.fin a) (F.fin b) = true ↔ a ≤ b := by
  simp [F.le]

theorem F.add_fin_fin (a b : ℚ) : F.add (F.fin a) (F.fin b) = F.fin (a + b) := rfl

theorem F.mul_fin_fin (a b : ℚ) : F.mul (F.fin a) (F.fin b) = F.fin (a * b) := rfl

theorem buildLoop_length_fst (ps : List (F × F)) (t h : F) :
    (buildLoop ps t h).1.length = ps.length := by
  induction ps generalizing t h with
  | nil => rfl
  | cons p rest ih =>
    obtain ⟨d, r⟩ := p
    simp [buildLoop, ih]

theorem buildLoop_length_snd (ps : List (F × F)) (t h : F) :
    (buildLoop ps t h).2.length = ps.length := by
  induction ps generalizing t h with
  | nil => rfl
  | cons p rest ih =>
    obtain ⟨d, r⟩ := p
    simp [buildLoop, ih]

theorem buildLoop_facts (ps : List (F × F)) (t0 h0 : ℚ)
    (hp : ∀ p ∈ ps, FinPos p.1 ∧ FinPos p.2) :
    (∀ x ∈ (buildLoop ps (F.fin t0) (F.fin h0)).1, ∃ q : ℚ, x = F.fin q ∧ t0 ≤ q) ∧
    (∀ x ∈ (buildLoop ps (F.fin t0) (F.fin h0)).2, ∃ q : ℚ, x = F.fin q ∧ h0 ≤ q) ∧
    List.Chain' (fun a b => F.le a b = true)
      (F.fin t0 :: (buildLoop ps (F.fin t0) (F.fin h0)).1) ∧
    List.Chain' (fun a b => F.le a b = true)
      (F.fin h0 :: (buildLoop ps (F.fin t0) (F.fin h0)).2) := by
  induction ps generalizing t0 h0 with
  | nil => simp [buildLoop]
  | cons p rest ih =>
    obtain ⟨d, r⟩ := p
    obtain ⟨⟨qd, hqd, hdpos⟩, ⟨qr, hqr, hrpos⟩⟩ := hp (d, r) (by simp)
    subst hqd hqr
    have hrest : ∀ p ∈ rest, FinPos p.1 ∧ FinPos p.2 := fun p hp' => hp p (by simp [hp'])
    have hmain := ih (t0 + qd) (h0 + qd * qr) hrest
    obtain ⟨ih1, ih2, ih3, ih4⟩ := hmain
    have hred : buildLoop ((F.fin qd, F.fin qr) :: rest) (F.fin t0) (F.fin h0) =
        ((F.fin (t0 + qd)) :: (buildLoop rest (F.fin (t0 + qd)) (F.fin (h0 + qd * qr))).1,
         (F.fin (h0 + qd * qr)) :: (buildLoop rest (F.fin (t0 + qd)) (F.fin (h0 + qd * qr))).2) := by
      simp [buildLoop, F.add, F.mul]
    refine ⟨?_, ?_, ?_, ?_⟩
    · intro x hx
      rw [hred] at hx
      simp only [List.mem_cons] at hx
      rcases hx with rfl | hx
      · exact ⟨t0 + qd, rfl, by linarith⟩
      · obtain ⟨q, rfl, hq⟩ := ih1 x hx
        exact ⟨q, rfl, by linarith⟩
    · intro x hx
      rw [hred] at hx
      simp only [List.mem_cons] at hx
      rcases hx with rfl | hx
      · exact ⟨h0 + qd * qr, rfl, by nlinarith⟩
      · obtain ⟨q, rfl, hq⟩ := ih2 x hx
        exact ⟨q, rfl, by nlinarith⟩
    · rw [hred]
      exact List.chain'_cons.mpr ⟨F.le_fin_iff.mpr (by linarith), ih3⟩
    · rw [hred]
      exact List.chain'_cons.mpr ⟨F.le_fin_iff.mpr (by nlinarith), ih4⟩

theorem buildLoop_getD (ps : List (F × F)) (t0 h0 : F) (i : Nat) (hi : i ≤ ps.length) :
    (t0 :: (buildLoop ps t0 h0).1).getD i F.nan =
      (ps.take i).foldl (fun a p => F.add a p.1) t0 ∧
    (h0 :: (buildLoop ps t0 h0).2).getD i F.nan =
      (ps.take i).foldl (fun a p => F.add a (F.mul p.1 p.2)) h0 := by
  induction ps generalizing t0 h0 i with
  | nil =>
    have : i = 0 := by simpa using hi
    subst this
    simp [buildLoop]
  | cons p rest ih =>
    obtain ⟨d, r⟩ := p
    cases i with
    | zero => simp
    | succ j =>
      have hj : j ≤ rest.length := by simpa using hi
      have := ih (F.add t0 d) (F.add h0 (F.mul d r)) j hj
      simpa [buildLoop, List.take_succ_cons] using this

end Simtrial

namespace Simtrial

theorem new_ok_elim {ds rs : List F} {d : PiecewiseExponential}
    (h : PiecewiseExponential.new ds rs = .ok d) :
    ds.length ≠ 0 ∧ ds.length = rs.length ∧
    findDurationError ds 0 (ds.length - 1) = none ∧
    findRateError rs 0 = none ∧
    d = ⟨rs,
      F.fin 0 :: (buildLoop ((ds.zip rs).take (ds.length - 1)) (F.fin 0) (F.fin 0)).1,
      F.fin 0 :: (buildLoop ((ds.zip rs).take (ds.length - 1)) (F.fin 0) (F.fin 0)).2⟩ := by
  simp only [PiecewiseExponential.new] at h
  by_cases h0 : ds.length = 0
  · simp [h0] at h
  · rw [if_neg h0] at h
    by_cases hlen : ds.length = rs.length
    · rw [if_neg (by omega)] at h
      cases hfd : findDurationError ds 0 (ds.length - 1) with
      | some e => rw [hfd] at h; cases h
      | none =>
        rw [hfd] at h
        cases hfr : findRateError rs 0 with
        | some e => rw [hfr] at h; cases h
        | none =>
          rw [hfr] at h
          refine ⟨h0, hlen, rfl, rfl, ?_⟩
          cases h
          rfl
    · rw [if_pos (by omega)] at h
      cases h

theorem findDurationError_none {l : List F} {idx last : Nat}
    (h : findDurationError l idx last = none) (i : Nat) (hi : i < l.length) :
    checkDuration (idx + i) last (l.getD i F.nan) = none := by
  induction l generalizing idx i with
  | nil => simp at hi
  | cons x t ih =>
    simp only [findDurationError] at h
    cases hc : checkDuration idx last x with
    | some e => rw [hc] at h; cases h
    | none =>
      rw [hc] at h
      cases i with
      | zero => simpa using hc
      | succ j =>
        have := ih h j (by simpa using hi)
        simpa [Nat.add_assoc, Nat.add_comm 1 j] using this

theorem checkDuration_none_nonfinal {i last : Nat} {d : F} (hlt : i < last)
    (h : checkDuration i last d = none) : FinPos d := by
  rcases d with _ | p | q
  · simp [checkDuration, F.is_nan, Nat.ne_of_lt hlt] at h
  · simp [checkDuration, F.is_nan, F.is_finite, hlt] at h
  · refine ⟨q, rfl, ?_⟩
    by_contra hq
    simp [checkDuration, F.is_nan, F.is_finite, hlt, F.le, not_lt.mp hq] at h

theorem findRateError_none {l : List F} {idx : Nat}
    (h : findRateError l idx = none) : ∀ r ∈ l, FinPos r := by
  induction l generalizing idx with
  | nil => simp
  | cons x t ih =>
    simp only [findRateError] at h
    cases hc : checkRate idx x with
    | some e => rw [hc] at h; cases h
    | none =>
      rw [hc] at h
      intro r hr
      rcases List.mem_cons.mp hr with rfl | hmem
      · rcases r with _ | p | q
        · simp [checkRate, F.is_finite] at hc
        · simp [checkRate, F.is_finite] at hc
        · refine ⟨q, rfl, ?_⟩
          by_contra hq
          simp [checkRate, F.is_finite, F.le, not_lt.mp hq] at hc
      · exact ih h r hmem

theorem pairs_pos {ds rs : List F}
    (hfd : findDurationError ds 0 (ds.length - 1) = none)
    (hfr : findRateError rs 0 = none) :
    ∀ p ∈ (ds.zip rs).take (ds.length - 1), FinPos p.1 ∧ FinPos p.2 := by
  intro p hp
  obtain ⟨j, hj, hget⟩ := List.mem_iff_getElem.mp hp
  have hj' : j < ds.length - 1 ∧ j < ds.length ∧ j < rs.length := by
    have hx := hj
    simp only [List.length_take, List.length_zip, Nat.lt_min] at hx
    exact ⟨hx.1, hx.2⟩
  obtain ⟨hjlt, hjds, hjrs⟩ := hj'
  have hp1 : p = (ds[j], rs[j]) := by
    rw [← hget]
    simp [List.getElem_take, List.getElem_zip]
  have hd : FinPos ds[j] := by
    have hc := findDurationError_none hfd j hjds
    rw [List.getD_eq_getElem ds F.nan hjds] at hc
    exact @checkDuration_none_nonfinal j (ds.length - 1) ds[j] (by omega) (by simpa using hc)
  have hr : FinPos rs[j] := findRateError_none hfr rs[j] (List.getElem_mem hjrs)
  rw [hp1]
  exact ⟨hd, hr⟩

end Simtrial

namespace Simtrial

structure NewFacts (durations rates : List F) (d : PiecewiseExponential) : Prop where
  rates_eq : d.rates = rates
  len_pos : 1 ≤ durations.length
  len_rates : rates.length = durations.length
  len_time : d.cumulative_time.length = durations.length
  len_hazard : d.cumulative_hazard.length = durations.length
  time_head : d.cumulative_time.getD 0 F.nan = F.fin 0
  hazard_head : d.cumulative_hazard.getD 0 F.nan = F.fin 0
  time_nonneg : ∀ x ∈ d.cumulative_time, FinNonneg x
  hazard_nonneg : ∀ x ∈ d.cumulative_hazard, FinNonneg x
  time_chain : List.Chain' (fun a b => F.le a b = true) d.cumulative_time
  hazard_chain : List.Chain' (fun a b => F.le a b = true) d.cumulative_hazard
  rates_pos : ∀ x ∈ d.rates, FinPos x

theorem newFacts {ds rs : List F} {d : PiecewiseExponential}
    (h : PiecewiseExponential.new ds rs = .ok d) : NewFacts ds rs d := by
  obtain ⟨h0, hlen, hfd, hfr, hshape⟩ := new_ok_elim h
  subst hshape
  have hpairs := pairs_pos hfd hfr
  obtain ⟨hf1, hf2, hf3, hf4⟩ := buildLoop_facts _ 0 0 hpairs
  have hplen : ((ds.zip rs).take (ds.length - 1)).length = ds.length - 1 := by
    simp only [List.length_take, List.length_zip]
    omega
  refine ⟨rfl, by omega, hlen.symm, ?_, ?_, rfl, rfl, ?_, ?_, hf3, hf4, ?_⟩
  · simp only [List.length_cons, buildLoop_length_fst, hplen]
    omega
  · simp only [List.length_cons, buildLoop_length_snd, hplen]
    omega
  · intro x hx
    rcases List.mem_cons.mp hx with rfl | hmem
    · exact ⟨0, rfl, le_refl 0⟩
    · obtain ⟨q, rfl, hq⟩ := hf1 x hmem
      exact ⟨q, rfl, hq⟩
  · intro x hx
    rcases List.mem_cons.mp hx with rfl | hmem
    · exact ⟨0, rfl, le_refl 0⟩
    · obtain ⟨q, rfl, hq⟩ := hf2 x hmem
      exact ⟨q, rfl, hq⟩
  · exact findRateError_none hfr

theorem pp_pos {p : F → Bool} {l : List F} (hl : 0 < l.length)
    (hp : p (l.getD 0 F.nan) = true) :
    0 < PiecewiseExponential.partition_point p l := by
  cases l with
  | nil => simp at hl
  | cons x t =>
    simp only [List.getD_cons_zero] at hp
    simp [PiecewiseExponential.partition_point, List.takeWhile, hp]

theorem sfh_idx_lt {ds rs : List F} {d : PiecewiseExponential}
    (hf : NewFacts ds rs d) (hazard : F) :
    PiecewiseExponential.sfhIndex d hazard < d.cumulative_hazard.length := by
  have h1 := pp_le_length (fun value => F.le value hazard) d.cumulative_hazard
  have h2 : 1 ≤ d.cumulative_hazard.length := by
    rw [hf.len_hazard]; exact hf.len_pos
  unfold PiecewiseExponential.sfhIndex
  omega

theorem sfh_le {ds rs : List F} {d : PiecewiseExponential}
    (hf : NewFacts ds rs d) {hazard : F} (hh : F.le (F.fin 0) hazard = true) :
    F.le (d.cumulative_hazard.getD (PiecewiseExponential.sfhIndex d hazard) F.nan)
      hazard = true := by
  have hlen : 1 ≤ d.cumulative_hazard.length := by
    rw [hf.len_hazard]; exact hf.len_pos
  have hpos : 0 < PiecewiseExponential.partition_point
      (fun value => F.le value hazard) d.cumulative_hazard := by
    apply pp_pos (by omega)
    rw [hf.hazard_head]
    exact hh
  have hidx : PiecewiseExponential.sfhIndex d hazard <
      PiecewiseExponential.partition_point (fun value => F.le value hazard)
        d.cumulative_hazard := by
    unfold PiecewiseExponential.sfhIndex
    omega
  exact pp_pred_true (fun value => F.le value hazard) d.cumulative_hazard _ hidx

theorem sfh_max {ds rs : List F} {d : PiecewiseExponential}
    (hf : NewFacts ds rs d) {hazard : F} (j : Nat)
    (hj : j < d.cumulative_hazard.length)
    (hpj : F.le (d.cumulative_hazard.getD j F.nan) hazard = true) :
    j ≤ PiecewiseExponential.sfhIndex d hazard := by
  by_contra hcon
  push_neg at hcon
  set pp := PiecewiseExponential.partition_point
    (fun value => F.le value hazard) d.cumulative_hazard with hpp
  have hjpp : pp ≤ j := by
    unfold PiecewiseExponential.sfhIndex at hcon
    omega
  have hpplen : pp < d.cumulative_hazard.length := by omega
  have hfalse : F.le (d.cumulative_hazard.getD pp F.nan) hazard = false := by
    have := pp_pred_false (fun value => F.le value hazard) d.cumulative_hazard hpplen
    simpa using this
  rcases Nat.lt_or_ge pp j with hlt | hge
  · have hstep : F.le (d.cumulative_hazard.getD pp F.nan)
        (d.cumulative_hazard.getD j F.nan) = true :=
      chain_le_getD _ hf.hazard_chain pp j hlt hj
    have := F.le_trans hstep hpj
    rw [hfalse] at this
    cases this
  · have : pp = j := by omega
    rw [this, hpj] at hfalse
    cases hfalse

end Simtrial

namespace Simtrial

/-- Concrete two-interval durations, used by the witness theorems. -/
def exDurations : List F := [F.fin 1, F.inf true]

/-- Concrete rates matching `exDurations`, used by the witness theorems. -/
def exRates : List F := [F.fin 2, F.fin 3]

/-- The distribution `new exDurations exRates` constructs. -/
def exDist : PiecewiseExponential :=
  ⟨[F.fin 2, F.fin 3], [F.fin 0, F.fin 1], [F.fin 0, F.fin 2]⟩

theorem exDist_new :
    PiecewiseExponential.new exDurations exRates = .ok exDist := by
  simp [PiecewiseExponential.new, exDurations, exRates, exDist, findDurationError,
    checkDuration, findRateError, checkRate, buildLoop, F.is_nan, F.is_finite,
    F.is_infinite, F.is_sign_negative, F.le, F.add, F.mul]
  norm_num

/-- C10: for every successfully constructed distribution and every float
hazard value, including NaN and the infinities, the index computed in
`sample_from_hazard` is strictly below the length of each of the three
stored arrays, so all three indexing operations are in bounds and sampling
never panics. -/
theorem c10_index_in_bounds (durations rates : List F)
    (d : PiecewiseExponential)
    (hd : PiecewiseExponential.new durations rates = .ok d) (hazard : F) :
    PiecewiseExponential.sfhIndex d hazard < d.cumulative_hazard.length ∧
    PiecewiseExponential.sfhIndex d hazard < d.cumulative_time.length ∧
    PiecewiseExponential.sfhIndex d hazard < d.rates.length := by
  have hf := newFacts hd
  have h1 := sfh_idx_lt hf hazard
  have h2 := hf.len_time
  have h3 := hf.len_hazard
  have h4 : d.rates.length = durations.length := by
    rw [hf.rates_eq, hf.len_rates]
  omega

/-- Witness for C10 at a concrete two-interval distribution and a NaN
hazard. -/
theorem c10_index_in_bounds_witness :
    PiecewiseExponential.new exDurations exRates = .ok exDist ∧
    (PiecewiseExponential.sfhIndex exDist F.nan < exDist.cumulative_hazard.length ∧
     PiecewiseExponential.sfhIndex exDist F.nan < exDist.cumulative_time.length ∧
     PiecewiseExponential.sfhIndex exDist F.nan < exDist.rates.length) :=
  ⟨exDist_new, c10_index_in_bounds exDurations exRates exDist exDist_new F.nan⟩

/-- C1: for every successfully constructed distribution and every hazard
value at least zero, `sample_from_hazard` selects the greatest in-bounds
index whose cumulative-hazard breakpoint does not exceed the hazard (with
index 0 always qualifying because the first breakpoint is zero, and the
index clamping to the last position when every breakpoint qualifies), and
returns `cumulative_time[idx] + (hazard - cumulative_hazard[idx]) /
rates[idx]`. -/
theorem c1_sample_from_hazard_lookup (durations rates : List F)
    (d : PiecewiseExponential) (hazard : F)
    (hd : PiecewiseExponential.new durations rates = .ok d)
    (hh : F.le (F.fin 0) hazard = true) :
    PiecewiseExponential.sfhIndex d hazard < d.cumulative_hazard.length ∧
    F.le (d.cumulative_hazard.getD (PiecewiseExponential.sfhIndex d hazard) F.nan)
      hazard = true ∧
    (∀ j, j < d.cumulative_hazard.length →
      F.le (d.cumulative_hazard.getD j F.nan) hazard = true →
      j ≤ PiecewiseExponential.sfhIndex d hazard) ∧
    PiecewiseExponential.sample_from_hazard d hazard =
      F.add (d.cumulative_time.getD (PiecewiseExponential.sfhIndex d hazard) F.nan)
        (F.div
          (F.sub hazard
            (d.cumulative_hazard.getD (PiecewiseExponential.sfhIndex d hazard) F.nan))
          (d.rates.getD (PiecewiseExponential.sfhIndex d hazard) F.nan)) := by
  have hf := newFacts hd
  exact ⟨sfh_idx_lt hf hazard, sfh_le hf hh,
    fun j hj hpj => sfh_max hf j hj hpj, rfl⟩

/-- Witness for C1 at the concrete two-interval distribution and hazard
3/2. -/
theorem c1_sample_from_hazard_lookup_witness :
    (PiecewiseExponential.new exDurations exRates = .ok exDist ∧
     F.le (F.fin 0) (F.fin (3 / 2)) = true) ∧
    (PiecewiseExponential.sfhIndex exDist (F.fin (3 / 2)) <
       exDist.cumulative_hazard.length ∧
     F.le (exDist.cumulative_hazard.getD
        (PiecewiseExponential.sfhIndex exDist (F.fin (3 / 2))) F.nan)
       (F.fin (3 / 2)) = true ∧
     (∀ j, j < exDist.cumulative_hazard.length →
       F.le (exDist.cumulative_hazard.getD j F.nan) (F.fin (3 / 2)) = true →
       j ≤ PiecewiseExponential.sfhIndex exDist (F.fin (3 / 2))) ∧
     PiecewiseExponential.sample_from_hazard exDist (F.fin (3 / 2)) =
       F.add (exDist.cumulative_time.getD
           (PiecewiseExponential.sfhIndex exDist (F.fin (3 / 2))) F.nan)
         (F.div
           (F.sub (F.fin (3 / 2))
             (exDist.cumulative_hazard.getD
               (PiecewiseExponential.sfhIndex exDist (F.fin (3 / 2))) F.nan))
           (exDist.rates.getD
             (PiecewiseExponential.sfhIndex exDist (F.fin (3 / 2))) F.nan))) :=
  ⟨⟨exDist_new, by norm_num [F.le]⟩,
    c1_sample_from_hazard_lookup exDurations exRates exDist (F.fin (3 / 2))
      exDist_new (by norm_num [F.le])⟩

/-- C4: for every distribution, every log transform and every float input
`u`, `inverse_cdf` returns the `UniformOutOfRange` error carrying `u` if and
only if `u` fails `0 < u <= 1` under the IEEE comparisons (which also
rejects NaN, negative values, zero and values above one), and returns
`Ok (sample_from_hazard (negLn u))` if and only if `u` satisfies them. -/
theorem c4_inverse_cdf_range (d : PiecewiseExponential) (negLn : F → F)
    (u : F) :
    (PiecewiseExponential.inverse_cdf d negLn u =
        .error (.UniformOutOfRange u) ↔
      (F.lt (F.fin 0) u && F.le u (F.fin 1)) = false) ∧
    (PiecewiseExponential.inverse_cdf d negLn u =
        .ok (PiecewiseExponential.sample_from_hazard d (negLn u)) ↔
      (F.lt (F.fin 0) u && F.le u (F.fin 1)) = true) := by
  unfold PiecewiseExponential.inverse_cdf
  cases hc : (F.lt (F.fin 0) u && F.le u (F.fin 1)) <;> simp [hc]

end Simtrial

namespace Simtrial

theorem sample_n_unfold (d : PiecewiseExponential) (negLn : F → F) :
    ∀ (n : Nat) (g : Rng),
      (PiecewiseExponential.sample_n d negLn n g).1 =
        (List.range n).map
          (fun i => (PiecewiseExponential.sample d negLn ⟨g.tape, g.pos + i⟩).1) ∧
      (PiecewiseExponential.sample_n d negLn n g).2 = ⟨g.tape, g.pos + n⟩ := by
  intro n
  induction n with
  | zero =>
    intro g
    cases g
    simp [PiecewiseExponential.sample_n]
  | succ n ih =>
    intro g
    obtain ⟨ih1, ih2⟩ := ih ⟨g.tape, g.pos + 1⟩
    constructor
    · show (PiecewiseExponential.sample d negLn g).1 ::
        (PiecewiseExponential.sample_n d negLn n ⟨g.tape, g.pos + 1⟩).1 = _
      rw [ih1, List.range_succ_eq_map, List.map_cons, List.map_map]
      have hg : (⟨g.tape, g.pos + 0⟩ : Rng) = g := by cases g; rfl
      rw [hg]
      congr 1
      apply List.map_congr_left
      intro i _
      simp only [Function.comp_apply]
      have : g.pos + 1 + i = g.pos + (i + 1) := by omega
      rw [this]
    · show (PiecewiseExponential.sample_n d negLn n ⟨g.tape, g.pos + 1⟩).2 = _
      rw [ih2]
      have : g.pos + 1 + n = g.pos + (n + 1) := by omega
      rw [this]

/-- C8: for every distribution, log transform, count `n` and random source,
`sample_n` returns exactly the draws of `n` `sample` invocations in sequence
order (draw `i` sees the source advanced by `i` positions), advances the
source by exactly `n` positions, and for `n = 0` returns the empty sequence
with the source unchanged. -/
theorem c8_sample_n_order (d : PiecewiseExponential) (negLn : F → F)
    (n : Nat) (g : Rng) :
    PiecewiseExponential.sample_n d negLn 0 g = ([], g) ∧
    (PiecewiseExponential.sample_n d negLn n g).1 =
      (List.range n).map
        (fun i => (PiecewiseExponential.sample d negLn ⟨g.tape, g.pos + i⟩).1) ∧
    (PiecewiseExponential.sample_n d negLn n g).2 = ⟨g.tape, g.pos + n⟩ := by
  refine ⟨?_, (sample_n_unfold d negLn n g).1, (sample_n_unfold d negLn n g).2⟩
  cases g
  simp [PiecewiseExponential.sample_n]

/-- C5: for every distribution, log transform, random source and count, if
every uniform on the consumed stretch of the tape lies in the open-closed
unit interval, then mapping `inverse_cdf` over that stretch of recorded
uniforms yields exactly the `sample` results of `sample_n`, each wrapped in
`Ok` — replaying the uniform stream reproduces the sample sequence. -/
theorem c5_replay_equivalence (d : PiecewiseExponential) (negLn : F → F)
    (g : Rng) (n : Nat)
    (hu : ∀ i, i < n →
      (F.lt (F.fin 0) (g.tape (g.pos + i)) &&
        F.le (g.tape (g.pos + i)) (F.fin 1)) = true) :
    (List.range n).map
        (fun i => PiecewiseExponential.inverse_cdf d negLn (g.tape (g.pos + i))) =
      (PiecewiseExponential.sample_n d negLn n g).1.map Except.ok := by
  rw [(sample_n_unfold d negLn n g).1, List.map_map]
  apply List.map_congr_left
  intro i hi
  have hrange := hu i (List.mem_range.mp hi)
  simp only [Function.comp_apply]
  simp [PiecewiseExponential.inverse_cdf, PiecewiseExponential.sample, hrange]

/-- Witness for C5 at the concrete two-interval distribution, a constant
tape at 1/2, and three draws. -/
theorem c5_replay_equivalence_witness :
    (∀ i, i < 3 →
      (F.lt (F.fin 0) ((fun _ : Nat => F.fin (1 / 2)) (0 + i)) &&
        F.le ((fun _ : Nat => F.fin (1 / 2)) (0 + i)) (F.fin 1)) = true) ∧
    (List.range 3).map
        (fun i => PiecewiseExponential.inverse_cdf exDist (fun _ => F.fin 5)
          ((fun _ : Nat => F.fin (1 / 2)) (0 + i))) =
      (PiecewiseExponential.sample_n exDist (fun _ => F.fin 5) 3
        ⟨fun _ => F.fin (1 / 2), 0⟩).1.map Except.ok :=
  ⟨fun i _ => by norm_num [F.lt, F.le],
    c5_replay_equivalence exDist (fun _ => F.fin 5) ⟨fun _ => F.fin (1 / 2), 0⟩ 3
      (fun i _ => by norm_num [F.lt, F.le])⟩

theorem F.sub_zero (x : F) : F.sub x (F.fin 0) = x := by
  cases x <;> simp [F.sub, F.neg, F.add]

theorem F.zero_add (x : F) : F.add (F.fin 0) x = x := by
  cases x <;> simp [F.add]

/-- C6: for every one-interval distribution built from a single duration and
rate `r`, and every uniform accepted by the range check, `inverse_cdf`
returns `Ok` of the transformed hazard divided by `r` — the single-interval
closed form `-ln(u) / r`. -/
theorem c6_single_interval (dur r : F) (d : PiecewiseExponential)
    (negLn : F → F) (u : F)
    (hd : PiecewiseExponential.new [dur] [r] = .ok d)
    (hu : (F.lt (F.fin 0) u && F.le u (F.fin 1)) = true) :
    PiecewiseExponential.inverse_cdf d negLn u = .ok (F.div (negLn u) r) := by
  obtain ⟨-, -, -, -, hshape⟩ := new_ok_elim hd
  have hshape' : d = ⟨[r], [F.fin 0], [F.fin 0]⟩ := hshape.trans rfl
  subst hshape'
  simp only [PiecewiseExponential.inverse_cdf, hu, Bool.not_true, Bool.false_eq_true,
    if_false]
  congr 1
  simp only [PiecewiseExponential.sample_from_hazard]
  have hidx : PiecewiseExponential.sfhIndex
      ⟨[r], [F.fin 0], [F.fin 0]⟩ (negLn u) = 0 := by
    unfold PiecewiseExponential.sfhIndex PiecewiseExponential.partition_point
    cases hp : F.le (F.fin 0) (negLn u) <;> simp [List.takeWhile, hp]
  rw [hidx]
  simp [F.sub_zero, F.zero_add]

/-- Witness for C6 at duration 1, rate 2, uniform 1/2 and an arbitrary
constant log transform. -/
theorem c6_single_interval_witness :
    (PiecewiseExponential.new [F.fin 1] [F.fin 2] =
      .ok ⟨[F.fin 2], [F.fin 0], [F.fin 0]⟩ ∧
     (F.lt (F.fin 0) (F.fin (1 / 2)) && F.le (F.fin (1 / 2)) (F.fin 1)) = true) ∧
    PiecewiseExponential.inverse_cdf ⟨[F.fin 2], [F.fin 0], [F.fin 0]⟩
        (fun _ => F.fin 7) (F.fin (1 / 2)) =
      .ok (F.div ((fun _ : F => F.fin 7) (F.fin (1 / 2))) (F.fin 2)) :=
  ⟨⟨(by
      simp [PiecewiseExponential.new, findDurationError, checkDuration,
        findRateError, checkRate, buildLoop, F.is_nan, F.is_finite, F.is_infinite,
        F.is_sign_negative, F.le, F.add, F.mul]
      norm_num), by norm_num [F.lt, F.le]⟩,
    c6_single_interval (F.fin 1) (F.fin 2) ⟨[F.fin 2], [F.fin 0], [F.fin 0]⟩
      (fun _ => F.fin 7) (F.fin (1 / 2))
      (by
        simp [PiecewiseExponential.new, findDurationError, checkDuration,
          findRateError, checkRate, buildLoop, F.is_nan, F.is_finite, F.is_infinite,
          F.is_sign_negative, F.le, F.add, F.mul]
        norm_num)
      (by norm_num [F.lt, F.le])⟩

end Simtrial

namespace Simtrial

theorem sfh_components {durations rates : List F} {d : PiecewiseExponential}
    (hf : NewFacts durations rates d) (hazard : F) :
    ∃ tq cq rq : ℚ,
      d.cumulative_time.getD (PiecewiseExponential.sfhIndex d hazard) F.nan =
        F.fin tq ∧ 0 ≤ tq ∧
      d.cumulative_hazard.getD (PiecewiseExponential.sfhIndex d hazard) F.nan =
        F.fin cq ∧ 0 ≤ cq ∧
      d.rates.getD (PiecewiseExponential.sfhIndex d hazard) F.nan =
        F.fin rq ∧ 0 < rq := by
  have hch : PiecewiseExponential.sfhIndex d hazard < d.cumulative_hazard.length :=
    sfh_idx_lt hf hazard
  have hct : PiecewiseExponential.sfhIndex d hazard < d.cumulative_time.length := by
    rw [hf.len_time, ← hf.len_hazard]
    exact hch
  have hrt : PiecewiseExponential.sfhIndex d hazard < d.rates.length := by
    rw [hf.rates_eq, hf.len_rates, ← hf.len_hazard]
    exact hch
  have hmem_t : d.cumulative_time.getD (PiecewiseExponential.sfhIndex d hazard)
      F.nan ∈ d.cumulative_time := by
    rw [List.getD_eq_getElem _ _ hct]
    exact List.getElem_mem hct
  have hmem_h : d.cumulative_hazard.getD (PiecewiseExponential.sfhIndex d hazard)
      F.nan ∈ d.cumulative_hazard := by
    rw [List.getD_eq_getElem _ _ hch]
    exact List.getElem_mem hch
  have hmem_r : d.rates.getD (PiecewiseExponential.sfhIndex d hazard)
      F.nan ∈ d.rates := by
    rw [List.getD_eq_getElem _ _ hrt]
    exact List.getElem_mem hrt
  obtain ⟨tq, htq, htq0⟩ := hf.time_nonneg _ hmem_t
  obtain ⟨cq, hcq, hcq0⟩ := hf.hazard_nonneg _ hmem_h
  obtain ⟨rq, hrq, hrq0⟩ := hf.rates_pos _ hmem_r
  exact ⟨tq, cq, rq, htq, htq0, hcq, hcq0, hrq, hrq0⟩

/-- C9: for every successfully constructed distribution and every hazard at
least zero, the value `sample_from_hazard` returns is at least zero, so
every `Ok` value of `inverse_cdf` and every `sample` draw is nonnegative. -/
theorem c9_sample_nonneg (durations rates : List F) (d : PiecewiseExponential)
    (hazard : F) (hd : PiecewiseExponential.new durations rates = .ok d)
    (hh : F.le (F.fin 0) hazard = true) :
    F.le (F.fin 0) (PiecewiseExponential.sample_from_hazard d hazard) = true := by
  have hf := newFacts hd
  obtain ⟨tq, cq, rq, htq, htq0, hcq, hcq0, hrq, hrq0⟩ := sfh_components hf hazard
  have hle := sfh_le hf hh
  rw [hcq] at hle
  simp only [PiecewiseExponential.sample_from_hazard]
  rw [htq, hcq, hrq]
  rcases hazard with _ | p | hq
  · simp [F.le] at hh
  · cases p
    · simp [F.le] at hh
    · have h1 : F.sub (F.inf true) (F.fin cq) = F.inf true := by
        simp [F.sub, F.neg, F.add]
      have h2 : F.div (F.inf true) (F.fin rq) = F.inf true := by
        simp [F.div, hrq0.ne', hrq0]
      have h3 : F.add (F.fin tq) (F.inf true) = F.inf true := by
        simp [F.add]
      rw [h1, h2, h3]
      simp [F.le]
  · rw [F.le_fin_iff] at hle
    have h1 : F.sub (F.fin hq) (F.fin cq) = F.fin (hq - cq) := by
      simp [F.sub, F.neg, F.add_fin_fin]
      ring
    have h2 : F.div (F.fin (hq - cq)) (F.fin rq) = F.fin ((hq - cq) / rq) := by
      simp [F.div, hrq0.ne']
    rw [h1, h2, F.add_fin_fin, F.le_fin_iff]
    have hdiv : 0 ≤ (hq - cq) / rq := div_nonneg (by linarith) hrq0.le
    linarith

/-- Witness for C9 at the concrete two-interval distribution and hazard
3/2. -/
theorem c9_sample_nonneg_witness :
    (PiecewiseExponential.new exDurations exRates = .ok exDist ∧
     F.le (F.fin 0) (F.fin (3 / 2)) = true) ∧
    F.le (F.fin 0)
      (PiecewiseExponential.sample_from_hazard exDist (F.fin (3 / 2))) = true :=
  ⟨⟨exDist_new, by norm_num [F.le]⟩,
    c9_sample_nonneg exDurations exRates exDist (F.fin (3 / 2)) exDist_new
      (by norm_num [F.le])⟩

/-- C7 as amended: for every successfully constructed distribution whose
final duration is positive infinity and every finite hazard at least zero,
the value `sample_from_hazard` returns is neither infinite nor NaN in the
absence of floating-point overflow — formalized by the exact
(overflow-free) arithmetic model, under which the final duration provably
never enters the cumulative arrays.  The unamended claim fails on the
program: a closed evaluation over the overflow-faithful arithmetic, given
later in this file, exhibits a validly constructed distribution with an
infinite final interval whose cumulative-time accumulation overflows to
positive infinity, making `sample_from_hazard` return positive infinity for
a finite nonnegative hazard. -/
theorem c7_finite_output (durations rates : List F) (d : PiecewiseExponential)
    (q : ℚ) (hd : PiecewiseExponential.new durations rates = .ok d)
    (_hlast : durations.getLast? = some (F.inf true)) (_hq : 0 ≤ q) :
    (PiecewiseExponential.sample_from_hazard d (F.fin q)).is_infinite = false ∧
    (PiecewiseExponential.sample_from_hazard d (F.fin q)).is_nan = false := by
  have hf := newFacts hd
  obtain ⟨tq, cq, rq, htq, htq0, hcq, hcq0, hrq, hrq0⟩ := sfh_components hf (F.fin q)
  simp only [PiecewiseExponential.sample_from_hazard]
  rw [htq, hcq, hrq]
  have h1 : F.sub (F.fin q) (F.fin cq) = F.fin (q - cq) := by
    simp [F.sub, F.neg, F.add_fin_fin]
    ring
  have h2 : F.div (F.fin (q - cq)) (F.fin rq) = F.fin ((q - cq) / rq) := by
    simp [F.div, hrq0.ne']
  rw [h1, h2, F.add_fin_fin]
  simp [F.is_infinite, F.is_nan]

/-- Witness for C7 at the concrete two-interval distribution, whose final
duration is positive infinity, and hazard 3/2. -/
theorem c7_finite_output_witness :
    (PiecewiseExponential.new exDurations exRates = .ok exDist ∧
     exDurations.getLast? = some (F.inf true) ∧ (0 : ℚ) ≤ 3 / 2) ∧
    ((PiecewiseExponential.sample_from_hazard exDist
        (F.fin (3 / 2))).is_infinite = false ∧
     (PiecewiseExponential.sample_from_hazard exDist
        (F.fin (3 / 2))).is_nan = false) :=
  ⟨⟨exDist_new, rfl, by norm_num⟩,
    c7_finite_output exDurations exRates exDist (3 / 2) exDist_new rfl
      (by norm_num)⟩

end Simtrial

namespace Simtrial

theorem fold_zip_fst_take :
    ∀ (a b : List F) (i : Nat) (t : F), i ≤ a.length → i ≤ b.length →
      ((a.zip b).take i).foldl (fun acc p => F.add acc p.1) t =
        (a.take i).foldl F.add t := by
  intro a
  induction a with
  | nil =>
    intro b i t hia hib
    have : i = 0 := by simpa using hia
    subst this
    simp
  | cons x a' ih =>
    intro b i t hia hib
    cases i with
    | zero => simp
    | succ j =>
      cases b with
      | nil => simp at hib
      | cons y b' =>
        simp only [List.zip_cons_cons, List.take_succ_cons, List.foldl_cons]
        exact ih b' j (F.add t x) (by simpa using hia) (by simpa using hib)

theorem fold_zip_mul_take :
    ∀ (a b : List F) (i : Nat) (t : F),
      ((a.zip b).take i).foldl (fun acc p => F.add acc (F.mul p.1 p.2)) t =
        ((List.zipWith F.mul a b).take i).foldl F.add t := by
  intro a
  induction a with
  | nil => intro b i t; simp
  | cons x a' ih =>
    intro b i t
    cases b with
    | nil => simp
    | cons y b' =>
      cases i with
      | zero => simp
      | succ j =>
        simp only [List.zip_cons_cons, List.zipWith_cons_cons, List.take_succ_cons,
          List.foldl_cons]
        exact ih b' j (F.add t (F.mul x y))

/-- C3: for every valid input pair, the constructed distribution has three
arrays of length equal to the interval count (at least one), both cumulative
arrays start at zero and are non-decreasing, each cumulative entry is the
running sum of the durations (respectively of the products duration times
rate) over the preceding, hence non-final, intervals, and the rates are
stored verbatim. -/
theorem c3_construction_invariants (durations rates : List F)
    (d : PiecewiseExponential)
    (hd : PiecewiseExponential.new durations rates = .ok d) :
    d.rates.length = durations.length ∧
    d.cumulative_time.length = durations.length ∧
    d.cumulative_hazard.length = durations.length ∧
    1 ≤ durations.length ∧
    d.cumulative_time.getD 0 F.nan = F.fin 0 ∧
    d.cumulative_hazard.getD 0 F.nan = F.fin 0 ∧
    List.Chain' (fun a b => F.le a b = true) d.cumulative_time ∧
    List.Chain' (fun a b => F.le a b = true) d.cumulative_hazard ∧
    (∀ i, i < durations.length →
      d.cumulative_time[i]? = some ((durations.take i).foldl F.add (F.fin 0)) ∧
      d.cumulative_hazard[i]? =
        some (((List.zipWith F.mul durations rates).take i).foldl F.add
          (F.fin 0))) ∧
    d.rates = rates := by
  have hf := newFacts hd
  obtain ⟨h0, hlen, hfd, hfr, hshape⟩ := new_ok_elim hd
  have hrlen : d.rates.length = durations.length := by
    rw [hf.rates_eq, hf.len_rates]
  refine ⟨hrlen, hf.len_time, hf.len_hazard, hf.len_pos, hf.time_head,
    hf.hazard_head, hf.time_chain, hf.hazard_chain, ?_, hf.rates_eq⟩
  intro i hi
  have hpslen : ((durations.zip rates).take (durations.length - 1)).length =
      durations.length - 1 := by
    simp only [List.length_take, List.length_zip]
    omega
  have hb := buildLoop_getD ((durations.zip rates).take (durations.length - 1))
    (F.fin 0) (F.fin 0) i (by omega)
  have hminr : Nat.min i (durations.length - 1) = i := Nat.min_eq_left (by omega)
  have hta : ((durations.zip rates).take (durations.length - 1)).take i =
      (durations.zip rates).take i := by
    rw [List.take_take]
    congr 1
  have hct : i < d.cumulative_time.length := by
    rw [hf.len_time]
    exact hi
  have hch : i < d.cumulative_hazard.length := by
    rw [hf.len_hazard]
    exact hi
  constructor
  · have hgoal : d.cumulative_time.getD i F.nan =
        (durations.take i).foldl F.add (F.fin 0) := by
      have hdct : d.cumulative_time = F.fin 0 ::
          (buildLoop ((durations.zip rates).take (durations.length - 1))
            (F.fin 0) (F.fin 0)).1 := by
        rw [hshape]
      rw [hdct, hb.1, hta]
      exact fold_zip_fst_take durations rates i (F.fin 0) (by omega) (by omega)
    rw [List.getElem?_eq_getElem hct,
      ← List.getD_eq_getElem d.cumulative_time F.nan hct, hgoal]
  · have hgoal : d.cumulative_hazard.getD i F.nan =
        ((List.zipWith F.mul durations rates).take i).foldl F.add (F.fin 0) := by
      have hdch : d.cumulative_hazard = F.fin 0 ::
          (buildLoop ((durations.zip rates).take (durations.length - 1))
            (F.fin 0) (F.fin 0)).2 := by
        rw [hshape]
      rw [hdch, hb.2, hta]
      exact fold_zip_mul_take durations rates i (F.fin 0)
    rw [List.getElem?_eq_getElem hch,
      ← List.getD_eq_getElem d.cumulative_hazard F.nan hch, hgoal]

/-- Witness for C3 at the concrete two-interval input. -/
theorem c3_construction_invariants_witness :
    PiecewiseExponential.new exDurations exRates = .ok exDist ∧
    (exDist.rates.length = exDurations.length ∧
     exDist.cumulative_time.length = exDurations.length ∧
     exDist.cumulative_hazard.length = exDurations.length ∧
     1 ≤ exDurations.length ∧
     exDist.cumulative_time.getD 0 F.nan = F.fin 0 ∧
     exDist.cumulative_hazard.getD 0 F.nan = F.fin 0 ∧
     List.Chain' (fun a b => F.le a b = true) exDist.cumulative_time ∧
     List.Chain' (fun a b => F.le a b = true) exDist.cumulative_hazard ∧
     (∀ i, i < exDurations.length →
       exDist.cumulative_time[i]? =
         some ((exDurations.take i).foldl F.add (F.fin 0)) ∧
       exDist.cumulative_hazard[i]? =
         some (((List.zipWith F.mul exDurations exRates).take i).foldl F.add
           (F.fin 0))) ∧
     exDist.rates = exRates) :=
  ⟨exDist_new, c3_construction_invariants exDurations exRates exDist exDist_new⟩

end Simtrial

namespace Simtrial

theorem checkDuration_eq_spec {idx last_index : Nat} (hle : idx ≤ last_index)
    (d : F) : checkDuration idx last_index d = specCheckDuration idx last_index d := by
  rcases Nat.lt_or_eq_of_le hle with hlt | heq
  · rcases d with _ | p | q
    · simp [checkDuration, specCheckDuration, F.is_nan, hlt, Nat.ne_of_lt hlt]
    · cases p <;>
        simp [checkDuration, specCheckDuration, F.is_nan, F.is_finite,
          F.is_infinite, F.le, hlt]
    · by_cases hq : q ≤ 0 <;>
        simp [checkDuration, specCheckDuration, F.is_nan, F.is_finite,
          F.is_infinite, F.le, hlt, hq]
  · subst heq
    rcases d with _ | p | q
    · simp [checkDuration, specCheckDuration, F.is_nan]
    · cases p <;>
        simp [checkDuration, specCheckDuration, F.is_nan, F.is_finite,
          F.is_infinite, F.is_sign_negative, F.le, lt_irrefl]
    · by_cases hq : q ≤ 0 <;>
        simp [checkDuration, specCheckDuration, F.is_nan, F.is_finite,
          F.is_infinite, F.is_sign_negative, F.le, lt_irrefl, hq]

theorem findDurationError_eq_spec :
    ∀ (l : List F) (idx last_index : Nat), idx + l.length ≤ last_index + 1 →
      findDurationError l idx last_index = specFindDurationError l idx last_index := by
  intro l
  induction l with
  | nil => intro idx last_index _; rfl
  | cons d rest ih =>
    intro idx last_index hbound
    simp only [findDurationError, specFindDurationError,
      checkDuration_eq_spec (show idx ≤ last_index by simp at hbound; omega) d]
    cases specCheckDuration idx last_index d with
    | some e => rfl
    | none =>
      simp only []
      exact ih (idx + 1) last_index (by simp at hbound; omega)

theorem findRateError_eq_spec :
    ∀ (l : List F) (idx : Nat), findRateError l idx = specFindRateError l idx := by
  intro l
  induction l with
  | nil => intro idx; rfl
  | cons r rest ih =>
    intro idx
    simp only [findRateError, specFindRateError]
    have hcr : checkRate idx r = specCheckRate idx r := rfl
    rw [hcr]
    cases specCheckRate idx r with
    | some e => rfl
    | none => exact ih (idx + 1)

/-- C2: for every input pair, `new` returns a construction error exactly
when the spec-side precedence function reports one, and it is the same
error: empty durations first, then length mismatch, then the duration
checks index by index with the final index handled by its own two rules,
then the rate checks index by index, the first violation winning. -/
theorem c2_error_precedence (durations rates : List F)
    (e : PiecewiseExponentialError) :
    PiecewiseExponential.new durations rates = .error e ↔
      specError durations rates = some e := by
  simp only [PiecewiseExponential.new, specError]
  by_cases h0 : durations.length = 0
  · simp [h0]
  · rw [if_neg h0, if_neg h0]
    by_cases hlen : durations.length = rates.length
    · rw [if_neg (by omega), if_neg (by omega)]
      rw [← findDurationError_eq_spec durations 0 (durations.length - 1) (by omega)]
      cases hfd : findDurationError durations 0 (durations.length - 1) with
      | some e' => simp
      | none =>
        rw [← findRateError_eq_spec rates 0]
        cases hfr : findRateError rates 0 with
        | some e' => simp
        | none => simp
    · rw [if_pos (by omega), if_pos (by omega)]
      simp

end Simtrial

namespace Simtrial

/-- Overflow threshold of `f64` under round-to-nearest-even: an exact result
whose magnitude reaches `2^1024 - 2^970` rounds to the corresponding
infinity (the largest finite double is `2^1024 - 2^971`, its ulp is `2^971`,
and the halfway point rounds to even, that is, to infinity). -/
def F.overflowThreshold : ℚ := 2 ^ 1024 - 2 ^ 970

/-- Overflow-faithful refinement of `F.add`: identical special-value rules,
but a finite sum saturates to a signed infinity at the `f64` overflow
threshold, as `f64` addition does.  Sub-threshold rounding and gradual
underflow are still not modelled; on traces whose intermediate values are
exactly representable doubles this refinement is bit-exact. -/
def F.addRound : F → F → F
  | nan, _ => nan
  | _, nan => nan
  | inf p, inf q => if p = q then inf p else nan
  | inf p, fin _ => inf p
  | fin _, inf q => inf q
  | fin a, fin b =>
    if overflowThreshold ≤ a + b then inf true
    else if a + b ≤ -overflowThreshold then inf false
    else fin (a + b)

/-- Overflow-faithful refinement of `F.mul`: as `F.mul`, with finite
products saturating at the `f64` overflow threshold. -/
def F.mulRound : F → F → F
  | nan, _ => nan
  | _, nan => nan
  | inf p, inf q => inf (p == q)
  | inf p, fin b => if b = 0 then nan else inf (p == decide (0 < b))
  | fin a, inf q => if a = 0 then nan else inf (q == decide (0 < a))
  | fin a, fin b =>
    if overflowThreshold ≤ a * b then inf true
    else if a * b ≤ -overflowThreshold then inf false
    else fin (a * b)

/-- Overflow-faithful refinement of `F.sub`, as addition of the negation. -/
def F.subRound (a b : F) : F := F.addRound a (F.neg b)

/-- Overflow-faithful refinement of `F.div`: as `F.div`, with finite
quotients saturating at the `f64` overflow threshold. -/
def F.divRound : F → F → F
  | nan, _ => nan
  | _, nan => nan
  | inf _, inf _ => nan
  | inf p, fin b => if b = 0 then inf p else inf (p == decide (0 < b))
  | fin _, inf _ => fin 0
  | fin a, fin b =>
    if b = 0 then (if a = 0 then nan else inf (decide (0 < a)))
    else if overflowThreshold ≤ a / b then inf true
    else if a / b ≤ -overflowThreshold then inf false
    else fin (a / b)

/-- The accumulation loop of `PiecewiseExponential::new` over the
overflow-faithful arithmetic. -/
def buildLoopOv : List (F × F) → F → F → List F × List F
  | [], _, _ => ([], [])
  | (d, r) :: rest, time_acc, hazard_acc =>
    let t := F.addRound time_acc d
    let h := F.addRound hazard_acc (F.mulRound d r)
    let tail := buildLoopOv rest t h
    (t :: tail.1, h :: tail.2)

namespace PiecewiseExponential

/-- `PiecewiseExponential::new` over the overflow-faithful arithmetic: the
validation is unchanged (it only compares and classifies), only the
accumulation of the cumulative arrays saturates on overflow as `f64`
does. -/
def newOv (durations rates : List F) :
    Except PiecewiseExponentialError PiecewiseExponential :=
  let interval_count := durations.length
  if interval_count = 0 then
    .error .EmptyIntervals
  else if interval_count ≠ rates.length then
    .error (.LengthMismatch interval_count rates.length)
  else
    let last_index := interval_count - 1
    match findDurationError durations 0 last_index with
    | some e => .error e
    | none =>
      match findRateError rates 0 with
      | some e => .error e
      | none =>
        let built := buildLoopOv ((durations.zip rates).take last_index)
          (F.fin 0) (F.fin 0)
        .ok ⟨rates, F.fin 0 :: built.1, F.fin 0 :: built.2⟩

/-- `PiecewiseExponential::sample_from_hazard` over the overflow-faithful
arithmetic; the index computation only compares and is shared with the
exact model. -/
def sample_from_hazardOv (self : PiecewiseExponential) (hazard : F) : F :=
  let idx := sfhIndex self hazard
  let base_time := self.cumulative_time.getD idx F.nan
  let offset := F.divRound
    (F.subRound hazard (self.cumulative_hazard.getD idx F.nan))
    (self.rates.getD idx F.nan)
  F.addRound base_time offset

end PiecewiseExponential

/-- C7 counterexample: once `f64` overflow is modelled, the claim fails on
the program.  The durations `[2^1023, 2^1023, +inf]` with rates
`[2^-1020, 2^-1020, 1]` pass validation (every value is an exactly
representable double), but the cumulative-time accumulation computes
`2^1023 + 2^1023 = 2^1024`, which overflows to `+inf`, while the
cumulative hazards stay at `[0, 8, 16]`.  The finite hazard `30`, which is
`-ln u` for `u = e^(-30) ≈ 9.4e-14` in `(0, 1]`, then selects the final
interval and `sample_from_hazard` returns `+inf + 14 = +inf`: an infinite
output for a finite nonnegative hazard on a validly constructed
distribution with an infinite final interval. -/
theorem c7_overflow_counterexample :
    PiecewiseExponential.newOv
        [F.fin (2 ^ 1023), F.fin (2 ^ 1023), F.inf true]
        [F.fin (1 / 2 ^ 1020), F.fin (1 / 2 ^ 1020), F.fin 1] =
      .ok ⟨[F.fin (1 / 2 ^ 1020), F.fin (1 / 2 ^ 1020), F.fin 1],
        [F.fin 0, F.fin (2 ^ 1023), F.inf true],
        [F.fin 0, F.fin 8, F.fin 16]⟩ ∧
    [F.fin (2 ^ 1023), F.fin (2 ^ 1023), F.inf true].getLast? =
      some (F.inf true) ∧
    (0 : ℚ) ≤ 30 ∧
    (PiecewiseExponential.sample_from_hazardOv
        ⟨[F.fin (1 / 2 ^ 1020), F.fin (1 / 2 ^ 1020), F.fin 1],
          [F.fin 0, F.fin (2 ^ 1023), F.inf true],
          [F.fin 0, F.fin 8, F.fin 16]⟩
        (F.fin 30)).is_infinite = true := by
  refine ⟨?_, rfl, by norm_num, ?_⟩
  · simp [PiecewiseExponential.newOv, findDurationError, checkDuration,
      findRateError, checkRate, buildLoopOv, F.addRound, F.mulRound, F.is_nan,
      F.is_finite, F.is_infinite, F.is_sign_negative, F.le, F.overflowThreshold]
    norm_num
  · simp [PiecewiseExponential.sample_from_hazardOv, PiecewiseExponential.sfhIndex,
      PiecewiseExponential.partition_point, List.takeWhile, F.le, F.subRound,
      F.addRound, F.divRound, F.neg, F.overflowThreshold, F.is_infinite]
    norm_num

end Simtrial
